import Mathlib

/-
Verification development for the chimera route compiler.

The compiler (commands/GenerateRoutes.ts, plus the revisions of the same
command shipped in the repository) takes the flat list of named routes,
builds a nested route map keyed by dot-separated name segments, optionally
pseudonymizes each segment with a keyed hash, and emits a client module with
a route resolver.

Modelling conventions:
- JavaScript plain objects used as string-keyed dictionaries are modelled as
  insertion-ordered association lists (the prototype chain is not modelled).
- The cryptographic digests from node:crypto are external collaborators and
  are modelled as injected functions, as the spec design notes prescribe.
- The command files are ES modules, hence strict mode: assigning a property
  on a string primitive throws a TypeError.  The tree-building loop can do
  exactly that (when it has descended into a leaf pattern string), so the
  insertion routine returns Except, and an error aborts the whole build the
  way the thrown exception aborts the forEach and is caught by run().
- Machine strings are Lean String values; JS split/substring/replace are
  modelled by structurally recursive char-list functions so that concrete
  instances reduce in the kernel.
-/

namespace Chimera

/-- A value stored in the nested route map: either a leaf URL pattern or a
nested object mapping a name segment to a further value. -/
inductive RVal where
  | leaf (pattern : String)
  | node (children : List (String × RVal))

/-- Reading a property of a JS object used as a dictionary:
first binding wins (keys are unique in maps built by setKey). -/
def getKey {α : Type} : List (String × α) → String → Option α
  | [], _ => none
  | (k2, v) :: rest, k => if k2 = k then some v else getKey rest k

/-- Assigning a property on a JS object used as a dictionary: an existing
key keeps its insertion position, a new key is appended at the end. -/
def setKey {α : Type} : List (String × α) → String → α → List (String × α)
  | [], k, v => [(k, v)]
  | (k2, v2) :: rest, k, v =>
    if k2 = k then (k, v) :: rest else (k2, v2) :: setKey rest k v

/-- Helper for splitDot: accumulates the current segment (reversed). -/
def splitDotAux : List Char → List Char → List String
  | [], acc => [String.mk acc.reverse]
  | c :: rest, acc =>
    if c = '.' then String.mk acc.reverse :: splitDotAux rest []
    else splitDotAux rest (c :: acc)

/-- Models the JS expression name.split(".").  Always returns a non-empty
list; the empty string splits to [""]. -/
def splitDot (s : String) : List String :=
  splitDotAux s.data []

/-- Models JS Array.prototype.join with the given separator. -/
def joinWith (sep : String) : List String → String
  | [] => ""
  | [x] => x
  | x :: y :: rest => x ++ sep ++ joinWith sep (y :: rest)

/-- Models JS String.prototype.substring(0, n) (the digests truncated here
are ASCII, so UTF-16 units coincide with characters). -/
def takeChars (s : String) (n : Nat) : String :=
  String.mk (s.data.take n)

/-- getHashedKey from buildAndMapRoutes (the HMAC revision):
crypto.createHmac('sha256', appKey).update(segment).digest('hex').substring(0, 8).
The HMAC-SHA256 hex digest itself is the external node:crypto collaborator,
passed in as hmacHex (key first, then message). -/
def getHashedKey (hmacHex : String → String → String) (appKey : String)
    (segment : String) : String :=
  takeChars (hmacHex appKey segment) 8

/-- One route record as consumed by buildAndMapRoutes:
Pick<SerializedRoute, 'name' | 'pattern'>.  A missing name is modelled as
the empty string (both are falsy in the source guard). -/
structure Route where
  name : String
  pattern : String

/-- The processed key list of one route name: the name split on '.', each
segment replaced by its pseudonym when obfuscation is on.
Source: const processedKeys = obfuscate ? keys.map(getHashedKey) : keys
(the sha256 revision hashes each segment inside the walk loop, which yields
the same key list). -/
def procKeys (obfuscate : Bool) (h : String → String) (name : String) :
    List String :=
  let keys := splitDot name
  if obfuscate then keys.map h else keys

/-- The per-route tree walk of buildAndMapRoutes.  For every key except the
last: currentLevel[k] = currentLevel[k] || {} and descend; for the last key:
currentLevel[k] = route.pattern.  Descending stores the existing value back
when it is truthy, so a non-empty leaf pattern string becomes currentLevel,
and the next property assignment on that string primitive throws (strict
mode); the error value models that thrown TypeError.  An empty-string leaf
is falsy and is silently replaced by a fresh subtree, like an absent key. -/
def insertPath : List (String × RVal) → List String → String →
    Except Unit (List (String × RVal))
  | cs, [], _ => Except.ok cs
  | cs, [k], p => Except.ok (setKey cs k (RVal.leaf p))
  | cs, k :: k2 :: rest, p =>
    match getKey cs k with
    | some (RVal.node sub) =>
      (insertPath sub (k2 :: rest) p).map fun sub2 => setKey cs k (RVal.node sub2)
    | some (RVal.leaf q) =>
      if q = "" then
        (insertPath [] (k2 :: rest) p).map fun sub2 => setKey cs k (RVal.node sub2)
      else Except.error ()
    | none =>
      (insertPath [] (k2 :: rest) p).map fun sub2 => setKey cs k (RVal.node sub2)

/-- The value recorded in the name map for one route name: the dot-joined
processed keys.  Source: nameMap[originalName] = processedKeys.join('.'). -/
def nmValue (obfuscate : Bool) (h : String → String) (name : String) : String :=
  joinWith "." (procKeys obfuscate h name)

/-- The routes.forEach body of buildAndMapRoutes, iterated over the route
list.  The accumulator carries (routeMap, nameMap).  An unnamed route is
skipped (if (!route.name) return); the name map is written only when
obfuscation is on. -/
def processRoutes (obfuscate : Bool) (h : String → String) :
    List (String × RVal) × List (String × String) → List Route →
    Except Unit (List (String × RVal) × List (String × String))
  | acc, [] => Except.ok acc
  | acc, r :: rest =>
    if r.name = "" then processRoutes obfuscate h acc rest
    else
      match insertPath acc.1 (procKeys obfuscate h r.name) r.pattern with
      | Except.error e => Except.error e
      | Except.ok rm2 =>
        processRoutes obfuscate h
          (rm2,
            if obfuscate then setKey acc.2 r.name (nmValue obfuscate h r.name)
            else acc.2)
          rest

/-- buildAndMapRoutes: builds the nested route map and the name map from
the flat route list, starting from empty objects. -/
def buildAndMapRoutes (routes : List Route) (obfuscate : Bool)
    (h : String → String) :
    Except Unit (List (String × RVal) × List (String × String)) :=
  processRoutes obfuscate h ([], []) routes

/-- Successive-segment lookup in the nested route map: descend through
subtrees along the key list and return whatever sits at the end.  A leaf
met before the last key, or an absent key, fails. -/
def lookupPath : List (String × RVal) → List String → Option RVal
  | cs, [] => some (RVal.node cs)
  | cs, [k] => getKey cs k
  | cs, k :: k2 :: rest =>
    match getKey cs k with
    | some (RVal.node sub) => lookupPath sub (k2 :: rest)
    | _ => none

/-- Segment-wise prefix relatedness of two key lists, in either direction
(equal lists are related).  Used to state the non-interference hypotheses
of the round-trip claims. -/
def keysRelated (a b : List String) : Bool :=
  a.isPrefixOf b || b.isPrefixOf a

/-- Name-level relatedness: duplicate names or a dotted-segment prefix
relation in either direction. -/
def namesRelated (n m : String) : Bool :=
  keysRelated (splitDot n) (splitDot m)

/- ------------------------------------------------------------------
The emitted client resolver (the template string in the run method of the
obfuscator revision, part_000 lines 144-176).
------------------------------------------------------------------ -/

/-- A JavaScript value as far as the route resolver inspects its name
argument (typeof name !== "string" is the only discrimination applied). -/
inductive JSVal where
  | vstr (s : String)
  | vnum (n : Int)
  | vbool (b : Bool)
  | vnull
  | vundef

/-- Models JS String.prototype.replace with a plain string search value:
only the first occurrence is replaced; with no occurrence the string is
returned unchanged.  (Dollar patterns in the replacement are not modelled;
replacements here are route parameter values.) -/
def replaceFirstList (needle repl : List Char) : List Char → List Char
  | [] => if needle.isPrefixOf [] then repl else []
  | c :: rest =>
    if needle.isPrefixOf (c :: rest) then repl ++ (c :: rest).drop needle.length
    else c :: replaceFirstList needle repl rest

/-- String version of replaceFirstList. -/
def replaceFirst (s needle repl : String) : String :=
  String.mk (replaceFirstList needle.data repl.data s.data)

/-- The body of the for-of walk loop of the emitted route function: when
the running value is a (truthy) object holding the key, descend, otherwise
undefined; the break is modelled by none absorbing the remaining steps. -/
def walkStep (acc : Option RVal) (key : String) : Option RVal :=
  match acc with
  | some (RVal.node cs) => getKey cs key
  | _ => none

/-- The body of the for-in loop over queryParams: append the entry to the
URLSearchParams list unless its value is null or undefined. -/
def appendParam (acc : List (String × String)) (kv : String × Option String) :
    List (String × String) :=
  match kv.2 with
  | some v => acc ++ [(kv.1, v)]
  | none => acc

/-- The route(name, params, queryParams) function of the emitted module,
transliterated.  Path parameter values and query values are taken already
string-coerced (the JS String(...) coercion is external); a null or
undefined query value is modelled as none.  The URL encoding applied by
URLSearchParams is the external platform collaborator enc, applied to each
appended key and value when serializing. -/
def routeModel (enc : String → String) (routes : List (String × RVal))
    (name : JSVal) (params : List (String × String))
    (queryParams : List (String × Option String)) : String :=
  match name with
  | JSVal.vstr nm =>
    let keys := splitDot nm
    let patOpt : Option RVal := keys.foldl walkStep (some (RVal.node routes))
    match patOpt with
    | some (RVal.leaf pat) =>
      let url := params.foldl (fun u kv => replaceFirst u (":" ++ kv.1) kv.2) pat
      let searchParams : List (String × String) := queryParams.foldl appendParam []
      let queryString :=
        joinWith "&" (searchParams.map fun kv => enc kv.1 ++ "=" ++ enc kv.2)
      if queryString = "" then url else url ++ "?" ++ queryString
    | _ => ""
  | _ => ""

/-- First-occurrence substitution of every params entry in order, as the
amended claim words it: for each key in params, replace the first
occurrence of the text ":key" in the url. -/
def substParamsFirst (pat : String) : List (String × String) → String
  | [] => pat
  | (k, v) :: rest => substParamsFirst (replaceFirst pat (":" ++ k) v) rest

/-- Fuel-bounded kernel of replaceAllList: each step consumes at least one
character of the haystack, so a fuel of the haystack length suffices. -/
def replaceAllAux (needle repl : List Char) : Nat → List Char → List Char
  | _, [] => []
  | 0, l => l
  | fuel + 1, c :: rest =>
    if needle ≠ [] ∧ needle.isPrefixOf (c :: rest) then
      repl ++ replaceAllAux needle repl fuel ((c :: rest).drop needle.length)
    else c :: replaceAllAux needle repl fuel rest

/-- Models replacing every occurrence of a needle, as the claim as stated
words the substitution ("each ':key' occurrence"). -/
def replaceAllList (needle repl hay : List Char) : List Char :=
  replaceAllAux needle repl hay.length hay

/-- String version of replaceAllList. -/
def replaceAll (s needle repl : String) : String :=
  String.mk (replaceAllList needle.data repl.data s.data)

/-- Every-occurrence substitution of every params entry in order. -/
def substParamsAll (pat : String) : List (String × String) → String
  | [] => pat
  | (k, v) :: rest => substParamsAll (replaceAll pat (":" ++ k) v) rest

/-- The query string of the resolver as the claim words it: the entries of
query with a non-null value, each encoded and joined with ampersands. -/
def specQueryString (enc : String → String)
    (queryParams : List (String × Option String)) : String :=
  joinWith "&"
    (queryParams.filterMap fun kv => kv.2.map fun v => enc kv.1 ++ "=" ++ enc v)

/-- The resolver as the amended claim describes it: split the name on dots,
look the tree up segment by segment, fail to "" on an absent segment or a
non-leaf result, substitute the first occurrence of each params key, then
append the encoded query string with a question mark when non-empty. -/
def specRouteFirst (enc : String → String) (routes : List (String × RVal))
    (name : String) (params : List (String × String))
    (queryParams : List (String × Option String)) : String :=
  match lookupPath routes (splitDot name) with
  | some (RVal.leaf pat) =>
    let url := substParamsFirst pat params
    let qs := specQueryString enc queryParams
    if qs = "" then url else url ++ "?" ++ qs
  | _ => ""

/-- The resolver as the claim as stated describes it: identical, except
that every occurrence of each params key is substituted. -/
def specRouteEach (enc : String → String) (routes : List (String × RVal))
    (name : String) (params : List (String × String))
    (queryParams : List (String × Option String)) : String :=
  match lookupPath routes (splitDot name) with
  | some (RVal.leaf pat) =>
    let url := substParamsAll pat params
    let qs := specQueryString enc queryParams
    if qs = "" then url else url ++ "?" ++ qs
  | _ => ""

/- ------------------------------------------------------------------
The Collector filter (#isAllowedByFilters of the filtering revision of
GenerateRoutes.ts) and the run pipeline around it.
------------------------------------------------------------------ -/

/-- Serialized handler display data. -/
inductive Handler where
  | closure (name : String) (args : Option String)
  | controller (moduleNameOrPath : String) (method : String)

/-- Shape of a serialized route, as produced by the serializeRoute helper
(SerializedRoute in the source). -/
structure SerializedRoute where
  name : String
  pattern : String
  methods : List String
  middleware : List String
  handler : Handler

/-- The command flags relevant to filtering.  The source field match is a
Lean keyword and is called matchFlag here; none models an absent flag. -/
structure Flags where
  matchFlag : Option String
  middleware : Option (List String)
  ignoreMiddleware : Option (List String)

/-- Contiguous containment of one char list in another. -/
def containsSeq (needle : List Char) : List Char → Bool
  | [] => needle.isPrefixOf []
  | c :: rest => needle.isPrefixOf (c :: rest) || containsSeq needle rest

/-- Models JS String.prototype.includes: substring containment. -/
def substrOf (needle hay : String) : Bool :=
  containsSeq needle.data hay.data

/-- isAllowedByFilters, transliterated.  Note that for a controller handler
only moduleNameOrPath is consulted by the match filter (the method name is
not), and that an empty-string match flag is falsy and disables the filter. -/
def isAllowedByFilters (fl : Flags) (route : SerializedRoute) : Bool :=
  let allowRoute := true
  let allowRoute :=
    match fl.middleware with
    | some names =>
      names.all fun n =>
        if n = "*" then decide (0 < route.middleware.length)
        else route.middleware.contains n
    | none => allowRoute
  let allowRoute :=
    match fl.ignoreMiddleware with
    | some names =>
      if allowRoute then
        names.all fun n =>
          if n = "*" then decide (route.middleware.length = 0)
          else !(route.middleware.contains n)
      else allowRoute
    | none => allowRoute
  if !allowRoute then false
  else
    match fl.matchFlag with
    | none => true
    | some m =>
      if m = "" then true
      else if substrOf m route.name then true
      else if substrOf m route.pattern then true
      else
        match route.handler with
        | Handler.controller moduleNameOrPath _ => substrOf m moduleNameOrPath
        | Handler.closure n _ => substrOf m n

/-- What the match filter actually consults about a handler: the module
path of a controller, the name of a closure. -/
def matchTarget : Handler → String
  | Handler.controller moduleNameOrPath _ => moduleNameOrPath
  | Handler.closure n _ => n

/-- The display identifier of a handler as the claim as stated words it:
the controller module/method dotted name, or the closure name. -/
def claimDisplayId : Handler → String
  | Handler.controller moduleNameOrPath method => moduleNameOrPath ++ "." ++ method
  | Handler.closure n _ => n

/-- The retention predicate as the claim as stated words it: every supplied
filter passes, and the match filter looks at the display identifier. -/
def claimAllowedByFilters (fl : Flags) (route : SerializedRoute) : Bool :=
  (match fl.middleware with
   | some names =>
     names.all fun n =>
       if n = "*" then decide (0 < route.middleware.length)
       else route.middleware.contains n
   | none => true) &&
  (match fl.ignoreMiddleware with
   | some names =>
     names.all fun n =>
       if n = "*" then decide (route.middleware.length = 0)
       else !(route.middleware.contains n)
   | none => true) &&
  (match fl.matchFlag with
   | some m =>
     substrOf m route.name || substrOf m route.pattern ||
       substrOf m (claimDisplayId route.handler)
   | none => true)

/- ------------------------------------------------------------------
The run pipeline of the filtering revision (the revision carrying the
APP_KEY guard cited by the error-handling claims).  File system, stub
rendering and logging are external; what matters to the claims is which
artifact data would be written and the process exit code.
------------------------------------------------------------------ -/

/-- Configuration from config/chimera.ts. -/
structure Config where
  outputPath : String
  obfuscate : Bool

/-- Outcome of one run: the artifact data written (route map, name map and
the obfuscation flag baked into the stub), or none when the command
returned without writing; and the process exit code (BaseCommand leaves
exitCode at 0 unless the catch block sets it to 1). -/
structure RunResult where
  written : Option ((List (String × RVal)) × (List (String × String)) × Bool)
  exitCode : Nat

/-- JS falsiness of the configured app key: undefined or the empty string. -/
def jsFalsyKey : Option String → Bool
  | none => true
  | some s => s == ""

/-- The run method of the filtering revision, step by step:
obfuscation requested with a falsy APP_KEY logs an error and returns (no
write, exit code untouched at 0); no named routes, or no routes surviving
the filters, logs a warning and returns likewise; otherwise the maps are
built (a thrown TypeError is caught and sets exit code 1 with nothing
written) and the rendered stub is written with exit code 0. -/
def run (hmacHex : String → String → String) (cfg : Config)
    (appKey : Option String) (fl : Flags)
    (routes : List SerializedRoute) : RunResult :=
  let shouldObfuscate := cfg.obfuscate
  if shouldObfuscate && jsFalsyKey appKey then
    { written := none, exitCode := 0 }
  else
    let namedRoutes := routes.filter fun r => r.name ≠ ""
    if namedRoutes.length = 0 then
      { written := none, exitCode := 0 }
    else
      let processedRoutes := namedRoutes.filter (isAllowedByFilters fl)
      if processedRoutes.length = 0 then
        { written := none, exitCode := 0 }
      else
        match buildAndMapRoutes
            (processedRoutes.map fun r => { name := r.name, pattern := r.pattern })
            shouldObfuscate
            (getHashedKey hmacHex (appKey.getD "")) with
        | Except.error _ => { written := none, exitCode := 1 }
        | Except.ok (rm, nm) =>
          { written := some (rm, nm, shouldObfuscate), exitCode := 0 }

/-- Hex digit predicate for the digest truncation claims. -/
def isHexChar (c : Char) : Bool :=
  c.isDigit || ('a' ≤ c && c ≤ 'f')

/- ------------------------------------------------------------------
Helper lemmas about the dictionary operations.
------------------------------------------------------------------ -/

theorem getKey_setKey_same {α : Type} (cs : List (String × α)) (k : String) (v : α) :
    getKey (setKey cs k v) k = some v := by
  induction cs with
  | nil => simp [setKey, getKey]
  | cons p rest ih =>
    obtain ⟨k2, v2⟩ := p
    by_cases h : k2 = k
    · simp [setKey, h, getKey]
    · simp [setKey, h, getKey, ih]

theorem getKey_setKey_other {α : Type} (cs : List (String × α)) (k k1 : String)
    (v : α) (hne : k1 ≠ k) : getKey (setKey cs k v) k1 = getKey cs k1 := by
  have hne2 : ¬(k = k1) := fun h => hne h.symm
  induction cs with
  | nil => simp [setKey, getKey, hne2]
  | cons p rest ih =>
    obtain ⟨k2, v2⟩ := p
    by_cases h : k2 = k
    · subst h
      simp [setKey, getKey, hne2]
    · simp only [setKey, if_neg h, getKey]
      by_cases h1 : k2 = k1
      · simp [h1]
      · simp [h1, ih]

theorem except_map_ok {α β : Type} (f : α → β) (e : Except Unit α) (b : β) :
    e.map f = Except.ok b ↔ ∃ a, e = Except.ok a ∧ b = f a := by
  cases e <;> simp [Except.map, eq_comm]

/-- If the looked-up first key agrees, cons lookups agree. -/
theorem lookupPath_cons_congr (cs cs2 : List (String × RVal)) (k : String)
    (T : List String) (h : getKey cs2 k = getKey cs k) :
    lookupPath cs2 (k :: T) = lookupPath cs (k :: T) := by
  cases T <;> simp [lookupPath, h]

/-- Shape analysis of a successful multi-segment insertion: the walk went
through a subtree chosen from the previous child at the head key (an
existing subtree; or a fresh one when the key was absent or held the falsy
empty-pattern leaf), and the result re-binds the head key to the updated
subtree. -/
theorem insertPath_cons_cases (cs cs2 : List (String × RVal)) (k k2 : String)
    (rest : List String) (p : String)
    (hins : insertPath cs (k :: k2 :: rest) p = Except.ok cs2) :
    ∃ subX sub2, insertPath subX (k2 :: rest) p = Except.ok sub2 ∧
      cs2 = setKey cs k (RVal.node sub2) ∧
      (getKey cs k = some (RVal.node subX) ∨
        (subX = [] ∧ (getKey cs k = none ∨ getKey cs k = some (RVal.leaf "")))) := by
  cases hg : getKey cs k with
  | none =>
    simp only [insertPath, hg, except_map_ok] at hins
    obtain ⟨sub2, hsub, hcs2⟩ := hins
    exact ⟨[], sub2, hsub, hcs2, Or.inr ⟨rfl, Or.inl rfl⟩⟩
  | some v =>
    cases v with
    | leaf q =>
      simp only [insertPath, hg] at hins
      by_cases hq : q = ""
      · rw [if_pos hq, except_map_ok] at hins
        obtain ⟨sub2, hsub, hcs2⟩ := hins
        exact ⟨[], sub2, hsub, hcs2, Or.inr ⟨rfl, Or.inr (by rw [hq])⟩⟩
      · rw [if_neg hq] at hins
        exact absurd hins (by simp)
    | node sub =>
      simp only [insertPath, hg, except_map_ok] at hins
      obtain ⟨sub2, hsub, hcs2⟩ := hins
      exact ⟨sub, sub2, hsub, hcs2, Or.inl rfl⟩

/-- Inserting a route pattern and then looking the same key path up yields
exactly that pattern. -/
theorem lookupPath_insertPath_self (keys : List String) :
    ∀ cs cs2 p, keys ≠ [] → insertPath cs keys p = Except.ok cs2 →
      lookupPath cs2 keys = some (RVal.leaf p) := by
  induction keys with
  | nil => intro cs cs2 p hne; exact absurd rfl hne
  | cons k rest ih =>
    intro cs cs2 p _ hins
    cases rest with
    | nil =>
      rw [insertPath] at hins
      cases hins
      simp [lookupPath, getKey_setKey_same]
    | cons k2 rest2 =>
      obtain ⟨subX, sub2, hsub, hcs2, -⟩ := insertPath_cons_cases cs cs2 k k2 rest2 p hins
      subst hcs2
      simp only [lookupPath, getKey_setKey_same]
      exact ih subX sub2 p (by simp) hsub

/-- A successful insertion leaves every leaf whose key path is prefix-
unrelated to the inserted path untouched. -/
theorem lookupPath_insertPath_preserve (keys2 : List String) :
    ∀ (cs cs2 : List (String × RVal)) (p2 : String) (keys : List String) (q : String),
      insertPath cs keys2 p2 = Except.ok cs2 →
      lookupPath cs keys = some (RVal.leaf q) →
      keys.isPrefixOf keys2 = false →
      keys2.isPrefixOf keys = false →
      lookupPath cs2 keys = some (RVal.leaf q) := by
  induction keys2 with
  | nil =>
    intro cs cs2 p2 keys q hins hlook _ _
    rw [insertPath] at hins
    cases hins
    exact hlook
  | cons k1 R ih =>
    intro cs cs2 p2 keys q hins hlook hpre1 hpre2
    cases keys with
    | nil => simp [lookupPath] at hlook
    | cons k T =>
      by_cases hk : k = k1
      · subst hk
        cases R with
        | nil =>
          exfalso
          cases T with
          | nil => simp [List.isPrefixOf] at hpre1
          | cons t T2 => simp [List.isPrefixOf] at hpre2
        | cons k2 rest =>
          obtain ⟨subX, sub2, hsub, hcs2, hold⟩ :=
            insertPath_cons_cases cs cs2 k k2 rest p2 hins
          subst hcs2
          cases T with
          | nil =>
            exfalso
            simp [List.isPrefixOf] at hpre1
          | cons t T2 =>
            rcases hold with hnode | ⟨-, habs⟩
            · simp only [lookupPath, hnode] at hlook
              have hp1 : (t :: T2).isPrefixOf (k2 :: rest) = false := by
                simpa [List.isPrefixOf] using hpre1
              have hp2 : (k2 :: rest).isPrefixOf (t :: T2) = false := by
                simpa [List.isPrefixOf] using hpre2
              have hlook2 := ih subX sub2 p2 (t :: T2) q hsub hlook hp1 hp2
              simp only [lookupPath, getKey_setKey_same]
              exact hlook2
            · exfalso
              rcases habs with hnone | hleaf
              · simp [lookupPath, hnone] at hlook
              · simp [lookupPath, hleaf] at hlook
      · -- the head keys differ, so the binding consulted by the lookup is
        -- unchanged whatever was inserted below k1
        cases R with
        | nil =>
          rw [insertPath] at hins
          cases hins
          rw [lookupPath_cons_congr cs _ k T (getKey_setKey_other cs k1 k _ hk)]
          exact hlook
        | cons k2 rest =>
          obtain ⟨subX, sub2, hsub, hcs2, -⟩ :=
            insertPath_cons_cases cs cs2 k1 k2 rest p2 hins
          subst hcs2
          rw [lookupPath_cons_congr cs _ k T (getKey_setKey_other cs k1 k _ hk)]
          exact hlook

/-- Processing a concatenated route list processes the two halves in
sequence, threading the accumulator (or stopping at a thrown error). -/
theorem processRoutes_append (obf : Bool) (hh : String → String) :
    ∀ (l1 l2 : List Route) (acc : List (String × RVal) × List (String × String)),
      processRoutes obf hh acc (l1 ++ l2) =
        match processRoutes obf hh acc l1 with
        | Except.ok a => processRoutes obf hh a l2
        | Except.error e => Except.error e := by
  intro l1
  induction l1 with
  | nil => intro l2 acc; simp [processRoutes]
  | cons r rest ih =>
    intro l2 acc
    by_cases hr : r.name = ""
    · simp only [List.cons_append, processRoutes, if_pos hr]
      exact ih l2 acc
    · simp only [List.cons_append, processRoutes, if_neg hr]
      cases insertPath acc.1 (procKeys obf hh r.name) r.pattern with
      | error e => rfl
      | ok rm2 => exact ih l2 _

/-- Processing further routes whose processed key paths are prefix-
unrelated to a given leaf path keeps that leaf intact. -/
theorem processRoutes_preserve (obf : Bool) (hh : String → String)
    (P : List String) (p : String) :
    ∀ (l : List Route) (acc acc2 : List (String × RVal) × List (String × String)),
      processRoutes obf hh acc l = Except.ok acc2 →
      lookupPath acc.1 P = some (RVal.leaf p) →
      (∀ r ∈ l, r.name ≠ "" → keysRelated (procKeys obf hh r.name) P = false) →
      lookupPath acc2.1 P = some (RVal.leaf p) := by
  intro l
  induction l with
  | nil =>
    intro acc acc2 hok hlook _
    rw [processRoutes] at hok
    cases hok
    exact hlook
  | cons r rest ih =>
    intro acc acc2 hok hlook hrel
    by_cases hr : r.name = ""
    · rw [processRoutes, if_pos hr] at hok
      exact ih acc acc2 hok hlook fun r2 h2 => hrel r2 (List.mem_cons_of_mem r h2)
    · rw [processRoutes, if_neg hr] at hok
      cases hins : insertPath acc.1 (procKeys obf hh r.name) r.pattern with
      | error e => rw [hins] at hok; exact absurd hok (by simp)
      | ok rm2 =>
        rw [hins] at hok
        have hrel2 := hrel r (List.mem_cons_self r rest) hr
        have hor := hrel2
        rw [keysRelated, Bool.or_eq_false_iff] at hor
        have hlook2 :=
          lookupPath_insertPath_preserve (procKeys obf hh r.name) acc.1 rm2
            r.pattern P p hins hlook hor.2 hor.1
        exact ih _ acc2 hok hlook2 fun r2 h2 => hrel r2 (List.mem_cons_of_mem r h2)

/-- splitDot never returns the empty list. -/
theorem splitDotAux_ne_nil (l : List Char) : ∀ acc, splitDotAux l acc ≠ [] := by
  induction l with
  | nil => intro acc; simp [splitDotAux]
  | cons c rest ih =>
    intro acc
    by_cases h : c = '.'
    · simp [splitDotAux, h]
    · simp only [splitDotAux, if_neg h]
      exact ih _

theorem splitDot_ne_nil (s : String) : splitDot s ≠ [] :=
  splitDotAux_ne_nil s.data []

theorem procKeys_ne_nil (obf : Bool) (hh : String → String) (n : String) :
    procKeys obf hh n ≠ [] := by
  cases obf with
  | false => simpa [procKeys] using splitDot_ne_nil n
  | true =>
    intro h
    apply splitDot_ne_nil n
    simpa [procKeys] using h

/-- Mapping an injective function over two lists preserves and reflects the
boolean prefix test. -/
theorem isPrefixOf_map (hh : String → String) (hinj : Function.Injective hh) :
    ∀ a b : List String, ((a.map hh).isPrefixOf (b.map hh)) = a.isPrefixOf b := by
  intro a
  induction a with
  | nil => intro b; simp [List.isPrefixOf]
  | cons x xs ih =>
    intro b
    cases b with
    | nil => simp [List.isPrefixOf]
    | cons y ys =>
      simp only [List.map_cons, List.isPrefixOf, ih ys]
      by_cases hxy : x = y
      · subst hxy
        simp
      · have h1 : (x == y) = false := beq_eq_false_iff_ne.mpr hxy
        have h2 : (hh x == hh y) = false :=
          beq_eq_false_iff_ne.mpr fun h => hxy (hinj h)
        rw [h1, h2]

/-- Prefix relatedness of processed key lists coincides with relatedness of
the underlying names, given an injective segment pseudonym function. -/
theorem keysRelated_procKeys (obf : Bool) (hh : String → String)
    (hinj : obf = true → Function.Injective hh) (n m : String) :
    keysRelated (procKeys obf hh n) (procKeys obf hh m) = namesRelated n m := by
  cases obf with
  | false => simp [procKeys, namesRelated]
  | true =>
    have hi := hinj rfl
    simp [procKeys, namesRelated, keysRelated, isPrefixOf_map hh hi]

/-- Round-trip workhorse: after a successful build, a named route that no
later named route duplicates or prefix-relates keeps its own pattern at its
processed key path. -/
theorem build_lookup_main (A post : List Route) (r : Route) (obf : Bool)
    (hh : String → String) (rm : List (String × RVal))
    (nm : List (String × String))
    (hname : r.name ≠ "")
    (hinj : obf = true → Function.Injective hh)
    (hpost : ∀ r2 ∈ post, r2.name ≠ "" → namesRelated r.name r2.name = false)
    (hok : buildAndMapRoutes (A ++ r :: post) obf hh = Except.ok (rm, nm)) :
    lookupPath rm (procKeys obf hh r.name) = some (RVal.leaf r.pattern) := by
  rw [buildAndMapRoutes, processRoutes_append] at hok
  cases h1 : processRoutes obf hh ([], []) A with
  | error e => rw [h1] at hok; exact absurd hok (by simp)
  | ok acc1 =>
    simp only [h1] at hok
    rw [processRoutes, if_neg hname] at hok
    cases hins : insertPath acc1.1 (procKeys obf hh r.name) r.pattern with
    | error e => rw [hins] at hok; exact absurd hok (by simp)
    | ok rm2 =>
      rw [hins] at hok
      have hself :=
        lookupPath_insertPath_self (procKeys obf hh r.name) acc1.1 rm2 r.pattern
          (procKeys_ne_nil obf hh r.name) hins
      have hrel : ∀ r2 ∈ post, r2.name ≠ "" →
          keysRelated (procKeys obf hh r2.name) (procKeys obf hh r.name) = false := by
        intro r2 h2 hn2
        rw [keysRelated_procKeys obf hh hinj]
        have := hpost r2 h2 hn2
        rw [namesRelated, keysRelated, Bool.or_eq_false_iff] at this ⊢
        exact ⟨this.2, this.1⟩
      exact processRoutes_preserve obf hh (procKeys obf hh r.name) r.pattern post
        _ (rm, nm) hok hself hrel

/-- Without obfuscation the name map accumulator is never touched. -/
theorem processRoutes_nm_false (hh : String → String) :
    ∀ (l : List Route) (acc acc2 : List (String × RVal) × List (String × String)),
      processRoutes false hh acc l = Except.ok acc2 → acc2.2 = acc.2 := by
  intro l
  induction l with
  | nil =>
    intro acc acc2 hok
    rw [processRoutes] at hok
    cases hok
    rfl
  | cons r rest ih =>
    intro acc acc2 hok
    by_cases hr : r.name = ""
    · rw [processRoutes, if_pos hr] at hok
      exact ih acc acc2 hok
    · rw [processRoutes, if_neg hr] at hok
      cases hins : insertPath acc.1 (procKeys false hh r.name) r.pattern with
      | error e => rw [hins] at hok; exact absurd hok (by simp)
      | ok rm2 =>
        rw [hins] at hok
        exact ih (rm2, acc.2) acc2 hok

/-- With obfuscation, a canonical name map entry survives further
processing: any later write to the same name writes the same value, and
writes to other names leave the binding alone. -/
theorem processRoutes_nm_preserve (hh : String → String) (n : String) :
    ∀ (l : List Route) (acc acc2 : List (String × RVal) × List (String × String)),
      processRoutes true hh acc l = Except.ok acc2 →
      getKey acc.2 n = some (nmValue true hh n) →
      getKey acc2.2 n = some (nmValue true hh n) := by
  intro l
  induction l with
  | nil =>
    intro acc acc2 hok hg
    rw [processRoutes] at hok
    cases hok
    exact hg
  | cons r rest ih =>
    intro acc acc2 hok hg
    by_cases hr : r.name = ""
    · rw [processRoutes, if_pos hr] at hok
      exact ih acc acc2 hok hg
    · rw [processRoutes, if_neg hr] at hok
      cases hins : insertPath acc.1 (procKeys true hh r.name) r.pattern with
      | error e => rw [hins] at hok; exact absurd hok (by simp)
      | ok rm2 =>
        rw [hins] at hok
        apply ih _ acc2 hok
        show getKey (setKey acc.2 r.name (nmValue true hh r.name)) n =
          some (nmValue true hh n)
        by_cases hn : r.name = n
        · subst hn
          rw [getKey_setKey_same]
        · rw [getKey_setKey_other _ _ _ _ fun h => hn h.symm]
          exact hg

/-- With obfuscation, every named route processed leaves its canonical
name map entry in the final accumulator. -/
theorem processRoutes_nm_mem (hh : String → String) :
    ∀ (l : List Route) (acc acc2 : List (String × RVal) × List (String × String))
      (r : Route),
      processRoutes true hh acc l = Except.ok acc2 → r ∈ l → r.name ≠ "" →
      getKey acc2.2 r.name = some (nmValue true hh r.name) := by
  intro l
  induction l with
  | nil =>
    intro acc acc2 r _ hmem
    exact absurd hmem (List.not_mem_nil r)
  | cons r0 rest ih =>
    intro acc acc2 r hok hmem hname
    rcases List.mem_cons.mp hmem with heq | hmem2
    · subst heq
      rw [processRoutes, if_neg hname] at hok
      cases hins : insertPath acc.1 (procKeys true hh r.name) r.pattern with
      | error e => rw [hins] at hok; exact absurd hok (by simp)
      | ok rm2 =>
        rw [hins] at hok
        apply processRoutes_nm_preserve hh r.name rest _ acc2 hok
        show getKey (setKey acc.2 r.name (nmValue true hh r.name)) r.name =
          some (nmValue true hh r.name)
        rw [getKey_setKey_same]
    · by_cases hr0 : r0.name = ""
      · rw [processRoutes, if_pos hr0] at hok
        exact ih acc acc2 r hok hmem2 hname
      · rw [processRoutes, if_neg hr0] at hok
        cases hins : insertPath acc.1 (procKeys true hh r0.name) r0.pattern with
        | error e => rw [hins] at hok; exact absurd hok (by simp)
        | ok rm2 =>
          rw [hins] at hok
          exact ih _ acc2 r hok hmem2 hname

/-- When every key path along an existing lookup exists, inserting there
cannot throw. -/
theorem insertPath_ok_of_lookup (P : List String) :
    ∀ (cs : List (String × RVal)) (v : RVal) (p : String),
      lookupPath cs P = some v → ∃ cs2, insertPath cs P p = Except.ok cs2 := by
  induction P with
  | nil => intro cs v p _; exact ⟨cs, rfl⟩
  | cons k R ih =>
    intro cs v p hlook
    cases R with
    | nil => exact ⟨setKey cs k (RVal.leaf p), rfl⟩
    | cons k2 rest =>
      cases hg : getKey cs k with
      | none => simp [lookupPath, hg] at hlook
      | some w =>
        cases w with
        | leaf q => simp [lookupPath, hg] at hlook
        | node sub =>
          simp only [lookupPath, hg] at hlook
          obtain ⟨sub2, hs⟩ := ih sub v p hlook
          exact ⟨setKey cs k (RVal.node sub2),
            by simp [insertPath, hg, hs, Except.map]⟩

/-- After inserting a leaf at a path, every strict extension of that path
looks up to nothing: the leaf string is not a subtree. -/
theorem lookupPath_insertPath_cut (P : List String) :
    ∀ (cs cs2 : List (String × RVal)) (p : String), P ≠ [] →
      insertPath cs P p = Except.ok cs2 →
      ∀ Q, Q ≠ [] → lookupPath cs2 (P ++ Q) = none := by
  induction P with
  | nil => intro cs cs2 p h; exact absurd rfl h
  | cons k R ih =>
    intro cs cs2 p _ hins Q hQ
    cases R with
    | nil =>
      rw [insertPath] at hins
      cases hins
      cases Q with
      | nil => exact absurd rfl hQ
      | cons q1 Q2 => simp [lookupPath, getKey_setKey_same]
    | cons k2 rest =>
      obtain ⟨subX, sub2, hsub, hcs2, -⟩ := insertPath_cons_cases cs cs2 k k2 rest p hins
      subst hcs2
      simp only [List.cons_append, lookupPath, getKey_setKey_same]
      exact ih subX sub2 p (by simp) hsub Q hQ

/- ------------------------------------------------------------------
Claim theorems: the round-trip, overwrite and name map claims.
------------------------------------------------------------------ -/

/-- C1: for every named route of the filtered input whose name neither
duplicates nor stands in a segment-prefix relation (either direction) with
a later route's name, looking the produced route map up at the route's
successive segments — pseudonymized by the same per-segment hash when
obfuscation is on (any injective pseudonym function) — yields exactly the
route's leaf pattern.  This holds whenever buildAndMapRoutes returns a map
at all (a thrown TypeError aborts the build and nothing is produced). -/
theorem claim_c1_roundtrip (routes pre post : List Route) (r : Route)
    (obf : Bool) (hh : String → String) (rm : List (String × RVal))
    (nm : List (String × String))
    (hsplit : routes = pre ++ r :: post)
    (hname : r.name ≠ "")
    (hinj : obf = true → Function.Injective hh)
    (hpost : ∀ r2 ∈ post, r2.name ≠ "" → namesRelated r.name r2.name = false)
    (hok : buildAndMapRoutes routes obf hh = Except.ok (rm, nm)) :
    lookupPath rm (procKeys obf hh r.name) = some (RVal.leaf r.pattern) := by
  subst hsplit
  exact build_lookup_main pre post r obf hh rm nm hname hinj hpost hok

/-- Witness for C1 at a concrete obfuscated compilation. -/
theorem claim_c1_roundtrip_witness :
    lookupPath [("users", RVal.node [("show", RVal.leaf "/users/:id")])]
      (procKeys true id "users.show") = some (RVal.leaf "/users/:id") :=
  claim_c1_roundtrip [⟨"users.show", "/users/:id"⟩] [] [] ⟨"users.show", "/users/:id"⟩
    true id [("users", RVal.node [("show", RVal.leaf "/users/:id")])]
    [("users.show", "users.show")] rfl (by decide) (fun _ => Function.injective_id)
    (fun r2 h2 => absurd h2 (List.not_mem_nil r2)) rfl

/-- C5: when several routes share one full dotted name, the route map leaf
at that path carries the pattern of the last such route of the input order
(last write wins), deterministically; stated for a successful build whose
later routes do not interfere with the path. -/
theorem claim_c5_lastwins (pre mid post : List Route) (r1 r2 : Route)
    (obf : Bool) (hh : String → String) (rm : List (String × RVal))
    (nm : List (String × String))
    (_hdup : r1.name = r2.name)
    (hname : r2.name ≠ "")
    (hinj : obf = true → Function.Injective hh)
    (hpost : ∀ r3 ∈ post, r3.name ≠ "" → namesRelated r2.name r3.name = false)
    (hok : buildAndMapRoutes (pre ++ r1 :: (mid ++ r2 :: post)) obf hh =
      Except.ok (rm, nm)) :
    lookupPath rm (procKeys obf hh r2.name) = some (RVal.leaf r2.pattern) := by
  have hassoc : pre ++ r1 :: (mid ++ r2 :: post) = (pre ++ r1 :: mid) ++ r2 :: post := by
    simp
  rw [hassoc] at hok
  exact build_lookup_main (pre ++ r1 :: mid) post r2 obf hh rm nm hname hinj hpost hok

/-- Witness for C5: two routes named a.b; the leaf holds the second pattern. -/
theorem claim_c5_lastwins_witness :
    lookupPath [("a", RVal.node [("b", RVal.leaf "/2")])]
      (procKeys false id "a.b") = some (RVal.leaf "/2") :=
  claim_c5_lastwins [] [] [] ⟨"a.b", "/1"⟩ ⟨"a.b", "/2"⟩ false id
    [("a", RVal.node [("b", RVal.leaf "/2")])] [] rfl (by decide)
    (fun h => nomatch h) (fun r3 h3 => absurd h3 (List.not_mem_nil r3)) rfl

/-- C8: the name map maps each original dotted name to the dot-joined
pseudonymized segments and is populated only under obfuscation; with
obfuscation off the returned name map is empty. -/
theorem claim_c8_namemap (routes : List Route) (obf : Bool)
    (hh : String → String) (rm : List (String × RVal))
    (nm : List (String × String))
    (hok : buildAndMapRoutes routes obf hh = Except.ok (rm, nm)) :
    (obf = false → nm = []) ∧
    (obf = true → ∀ r ∈ routes, r.name ≠ "" →
      getKey nm r.name = some (joinWith "." ((splitDot r.name).map hh))) := by
  constructor
  · intro h
    subst h
    exact processRoutes_nm_false hh routes ([], []) (rm, nm) hok
  · intro h
    subst h
    intro r hr hname
    have hv := processRoutes_nm_mem hh routes ([], []) (rm, nm) r hok hr hname
    simpa [nmValue, procKeys] using hv

/-- Witness for C8 at a concrete obfuscated compilation. -/
theorem claim_c8_namemap_witness :
    getKey [("users.show", "users.show")] "users.show" = some "users.show" := by
  have h := claim_c8_namemap [⟨"users.show", "/users/:id"⟩] true id
    [("users", RVal.node [("show", RVal.leaf "/users/:id")])]
    [("users.show", "users.show")] rfl
  have h2 := h.2 rfl ⟨"users.show", "/users/:id"⟩ (by simp) (by decide)
  exact h2

/-- C9: a route whose full name is a proper segment-prefix of routes
already inserted (a subtree sits at its key path) silently sets its leaf
there, overwriting the subtree with the pattern string, so every deeper
path previously reachable under that prefix now looks up to nothing. -/
theorem claim_c9_clobber (pre : List Route) (r2 : Route) (obf : Bool)
    (hh : String → String) (rm0 : List (String × RVal))
    (nm0 : List (String × String)) (sub : List (String × RVal))
    (hname : r2.name ≠ "")
    (hpre : buildAndMapRoutes pre obf hh = Except.ok (rm0, nm0))
    (hnode : lookupPath rm0 (procKeys obf hh r2.name) = some (RVal.node sub)) :
    ∃ rm1 nm1, buildAndMapRoutes (pre ++ [r2]) obf hh = Except.ok (rm1, nm1) ∧
      lookupPath rm1 (procKeys obf hh r2.name) = some (RVal.leaf r2.pattern) ∧
      ∀ Q, Q ≠ [] → lookupPath rm1 (procKeys obf hh r2.name ++ Q) = none := by
  obtain ⟨cs2, hins⟩ :=
    insertPath_ok_of_lookup (procKeys obf hh r2.name) rm0 (RVal.node sub)
      r2.pattern hnode
  refine ⟨cs2,
    if obf then setKey nm0 r2.name (nmValue obf hh r2.name) else nm0, ?_, ?_, ?_⟩
  · rw [buildAndMapRoutes] at hpre ⊢
    rw [processRoutes_append]
    simp only [hpre]
    rw [processRoutes, if_neg hname]
    rw [hins]
    rfl
  · exact lookupPath_insertPath_self (procKeys obf hh r2.name) rm0 cs2 r2.pattern
      (procKeys_ne_nil obf hh r2.name) hins
  · exact lookupPath_insertPath_cut (procKeys obf hh r2.name) rm0 cs2 r2.pattern
      (procKeys_ne_nil obf hh r2.name) hins

/-- Witness for C9: route a.b = /1 followed by route a = /x; the subtree
under a is replaced by the leaf /x and a.b is gone. -/
theorem claim_c9_clobber_witness :
    lookupPath [("a", RVal.leaf "/x")] ["a"] = some (RVal.leaf "/x") ∧
    lookupPath [("a", RVal.leaf "/x")] ["a", "b"] = none := by
  obtain ⟨rm1, nm1, h1, h2, h3⟩ :=
    claim_c9_clobber [⟨"a.b", "/1"⟩] ⟨"a", "/x"⟩ false id
      [("a", RVal.node [("b", RVal.leaf "/1")])] [] [("b", RVal.leaf "/1")]
      (by decide) rfl rfl
  have hcalc : buildAndMapRoutes ([⟨"a.b", "/1"⟩] ++ [⟨"a", "/x"⟩]) false id =
      Except.ok ([("a", RVal.leaf "/x")], ([] : List (String × String))) := rfl
  rw [hcalc] at h1
  injection h1 with h4
  injection h4 with h5 h6
  subst h5
  exact ⟨h2, h3 ["b"] (by decide)⟩

/- ------------------------------------------------------------------
Resolver lemmas: the fold-with-break walk agrees with the recursive
lookup, and the query fold agrees with a filterMap.
------------------------------------------------------------------ -/

/-- Once the walk value is undefined it stays undefined. -/
theorem foldl_walkStep_none (keys : List String) :
    keys.foldl walkStep none = none := by
  induction keys with
  | nil => rfl
  | cons k rest ih => exact ih

/-- The route function walk loop computes exactly the recursive path
lookup. -/
theorem foldl_walkStep_eq_lookupPath :
    ∀ (keys : List String) (cs : List (String × RVal)),
      keys.foldl walkStep (some (RVal.node cs)) = lookupPath cs keys := by
  intro keys
  induction keys with
  | nil => intro cs; rfl
  | cons k rest ih =>
    intro cs
    have hstep : (k :: rest).foldl walkStep (some (RVal.node cs)) =
        rest.foldl walkStep (getKey cs k) := rfl
    rw [hstep]
    cases hg : getKey cs k with
    | none =>
      cases rest with
      | nil => simp [lookupPath, hg]
      | cons a b =>
        rw [foldl_walkStep_none (a :: b)]
        simp [lookupPath, hg]
    | some w =>
      cases w with
      | leaf p =>
        cases rest with
        | nil => simp [lookupPath, hg]
        | cons a b =>
          have habs : (a :: b).foldl walkStep (some (RVal.leaf p)) = none :=
            foldl_walkStep_none b
          rw [habs]
          simp [lookupPath, hg]
      | node sub =>
        cases rest with
        | nil => simp [lookupPath, hg]
        | cons a b =>
          have hrec : (a :: b).foldl walkStep (some (RVal.node sub)) =
              lookupPath sub (a :: b) := ih sub
          rw [hrec]
          simp [lookupPath, hg]

/-- The URLSearchParams accumulation keeps exactly the entries with a
non-null value, in order. -/
theorem foldl_appendParam (q : List (String × Option String)) :
    ∀ acc : List (String × String),
      q.foldl appendParam acc =
        acc ++ q.filterMap fun kv => kv.2.map fun v => (kv.1, v) := by
  induction q with
  | nil => intro acc; simp
  | cons kv rest ih =>
    intro acc
    obtain ⟨k, ov⟩ := kv
    cases ov with
    | none => simpa [List.foldl_cons, appendParam, List.filterMap_cons] using ih acc
    | some v =>
      simp only [List.foldl_cons, appendParam, List.filterMap_cons, Option.map_some]
      rw [ih (acc ++ [(k, v)])]
      simp

/-- Serializing the accumulated query pairs agrees with the spec-side
query string. -/
theorem queryString_eq (enc : String → String)
    (q : List (String × Option String)) :
    joinWith "&" ((q.foldl appendParam []).map
      fun kv => enc kv.1 ++ "=" ++ enc kv.2) = specQueryString enc q := by
  rw [foldl_appendParam q [], List.nil_append, specQueryString]
  congr 1
  induction q with
  | nil => rfl
  | cons kv rest ih =>
    obtain ⟨k, ov⟩ := kv
    cases ov with
    | none => simpa [List.filterMap_cons] using ih
    | some v => simp [List.filterMap_cons, ih]

/-- The fold of first-occurrence replacements is substParamsFirst. -/
theorem foldl_replaceFirst_eq (params : List (String × String)) :
    ∀ pat : String,
      params.foldl (fun u kv => replaceFirst u (":" ++ kv.1) kv.2) pat =
        substParamsFirst pat params := by
  induction params with
  | nil => intro pat; rfl
  | cons kv rest ih => intro pat; simp [List.foldl_cons, substParamsFirst, ih]

/- ------------------------------------------------------------------
Claim theorems: the emitted resolver.
------------------------------------------------------------------ -/

/-- C4 counterexample: the emitted code uses String.prototype.replace with
a plain string, which substitutes only the first occurrence of ":id"; the
claim as stated ("each ':id' occurrence") demands the second substitution
too, and differs on the pattern /x/:id/:id. -/
theorem claim_c4_resolver_cex :
    routeModel (fun s => s) [("a", RVal.leaf "/x/:id/:id")] (JSVal.vstr "a")
      [("id", "7")] [] = "/x/7/:id" ∧
    specRouteEach (fun s => s) [("a", RVal.leaf "/x/:id/:id")] "a"
      [("id", "7")] [] = "/x/7/7" ∧
    routeModel (fun s => s) [("a", RVal.leaf "/x/:id/:id")] (JSVal.vstr "a")
      [("id", "7")] [] ≠
      specRouteEach (fun s => s) [("a", RVal.leaf "/x/:id/:id")] "a"
        [("id", "7")] [] :=
  ⟨rfl, rfl, by decide⟩

/-- C4 amended: the emitted route function equals the spec-side resolver
with first-occurrence parameter substitution: split the name on dots, walk
the tree segment by segment, return the empty string on an absent segment
or non-leaf final value, otherwise substitute the first occurrence of each
params key, then append the encoded non-null query entries after a question
mark, omitted when the query string is empty. -/
theorem claim_c4_resolver (enc : String → String) (routes : List (String × RVal))
    (nm : String) (params : List (String × String))
    (queryParams : List (String × Option String)) :
    routeModel enc routes (JSVal.vstr nm) params queryParams =
      specRouteFirst enc routes nm params queryParams := by
  rw [routeModel, specRouteFirst]
  simp only [foldl_walkStep_eq_lookupPath]
  cases hl : lookupPath routes (splitDot nm) with
  | none => rfl
  | some v =>
    cases v with
    | node sub => rfl
    | leaf pat =>
      simp only [foldl_replaceFirst_eq, queryString_eq]

/-- C10: a non-string name argument makes the emitted route function return
the empty string (after its diagnostic), without consulting the tree: the
result is the same for every tree. -/
theorem claim_c10_nonstring (enc : String → String)
    (routes : List (String × RVal)) (params : List (String × String))
    (queryParams : List (String × Option String)) (v : JSVal)
    (hv : ∀ s, v ≠ JSVal.vstr s) :
    routeModel enc routes v params queryParams = "" := by
  cases v with
  | vstr s => exact absurd rfl (hv s)
  | vnum n => rfl
  | vbool b => rfl
  | vnull => rfl
  | vundef => rfl

/-- Witness for C10 at a numeric name argument. -/
theorem claim_c10_nonstring_witness :
    routeModel (fun s => s) [("a", RVal.leaf "/x")] (JSVal.vnum 3) [] [] = "" :=
  claim_c10_nonstring (fun s => s) [("a", RVal.leaf "/x")] [] [] (JSVal.vnum 3)
    (fun _ h => JSVal.noConfusion h)

/- ------------------------------------------------------------------
Claim theorems: the pseudonym function.
------------------------------------------------------------------ -/

/-- C3: under the standard contract of the external HMAC-SHA256 hex digest
(64 lowercase hex characters for every key and message), getHashedKey
yields the 8-character truncation of the digest keyed by the configured
secret — a fixed length within the 8 to 16 character band, all hex — and
the pseudonym of a segment depends on nothing but the segment string: at
every position of every processed name, the key used is the hash of the
segment at that position (no positional salt). -/
theorem claim_c3_pseudonym (hmacHex : String → String → String) (key : String)
    (hdig : ∀ k msg, (hmacHex k msg).length = 64 ∧
      ∀ c ∈ (hmacHex k msg).data, isHexChar c = true) :
    (∀ seg, getHashedKey hmacHex key seg = takeChars (hmacHex key seg) 8 ∧
      (getHashedKey hmacHex key seg).length = 8 ∧
      ∀ c ∈ (getHashedKey hmacHex key seg).data, isHexChar c = true) ∧
    (∀ (n : String) (i : Nat),
      (procKeys true (getHashedKey hmacHex key) n).get? i =
        ((splitDot n).get? i).map (getHashedKey hmacHex key)) := by
  constructor
  · intro seg
    refine ⟨rfl, ?_, ?_⟩
    · have h64 : (hmacHex key seg).data.length = 64 := (hdig key seg).1
      show ((hmacHex key seg).data.take 8).length = 8
      rw [List.length_take, h64]
      decide
    · intro c hc
      have hc2 : c ∈ (hmacHex key seg).data := List.take_subset 8 _ hc
      exact (hdig key seg).2 c hc2
  · intro n i
    simp [procKeys, List.get?_map]

/-- Witness for C3 with a stub digest of 64 hex characters. -/
theorem claim_c3_pseudonym_witness :
    (getHashedKey (fun _ _ => String.mk (List.replicate 64 'a')) "secret"
      "users").length = 8 := by
  have hd : ∀ (k msg : String),
      (String.mk (List.replicate 64 'a')).length = 64 ∧
      ∀ c ∈ (String.mk (List.replicate 64 'a')).data, isHexChar c = true := by
    intro k msg
    refine ⟨by decide, ?_⟩
    intro c hc
    have hca : c = 'a' := List.eq_of_mem_replicate hc
    subst hca
    decide
  exact ((claim_c3_pseudonym (fun _ _ => String.mk (List.replicate 64 'a'))
    "secret" hd).1 "users").2.1

/- ------------------------------------------------------------------
Bridge lemmas for the filter claim.
------------------------------------------------------------------ -/

theorem mwAll_iff (names mids : List String) :
    ((names.all fun n =>
      if n = "*" then decide (0 < mids.length) else mids.contains n) = true) ↔
    ∀ n ∈ names, if n = "*" then mids ≠ [] else n ∈ mids := by
  rw [List.all_eq_true]
  apply forall_congr'
  intro n
  apply imp_congr_right
  intro _
  by_cases h : n = "*"
  · simp [h, List.length_pos]
  · simp only [if_neg h]
    exact List.elem_iff

theorem imwAll_iff (names mids : List String) :
    ((names.all fun n =>
      if n = "*" then decide (mids.length = 0) else !(mids.contains n)) = true) ↔
    ∀ n ∈ names, if n = "*" then mids = [] else n ∉ mids := by
  rw [List.all_eq_true]
  apply forall_congr'
  intro n
  apply imp_congr_right
  intro _
  by_cases h : n = "*"
  · simp [h, List.length_eq_zero]
  · simp only [if_neg h, Bool.not_eq_true']
    constructor
    · intro hf hmem
      have hc : mids.contains n = true := List.elem_iff.mpr hmem
      rw [hf] at hc
      exact Bool.noConfusion hc
    · intro hnm
      cases hc : mids.contains n with
      | false => rfl
      | true => exact absurd (List.elem_iff.mp hc) hnm

theorem handlerChain_eq (m : String) (h : Handler) :
    (match h with
     | Handler.controller moduleNameOrPath _ => substrOf m moduleNameOrPath
     | Handler.closure n _ => substrOf m n) = substrOf m (matchTarget h) := by
  cases h <;> rfl

/-- The trailing guard-and-match stage of isAllowedByFilters as one boolean
conjunction. -/
theorem tailStage (b : Bool) (mf : Option String) (r : SerializedRoute) :
    (if !b then false
     else
       match mf with
       | none => true
       | some m =>
         if m = "" then true
         else if substrOf m r.name then true
         else if substrOf m r.pattern then true
         else
           match r.handler with
           | Handler.controller moduleNameOrPath _ => substrOf m moduleNameOrPath
           | Handler.closure n _ => substrOf m n) =
    (b &&
      match mf with
      | none => true
      | some m => decide (m = "") || substrOf m r.name || substrOf m r.pattern ||
          substrOf m (matchTarget r.handler)) := by
  cases b with
  | false => rfl
  | true =>
    simp only [Bool.not_true, Bool.false_eq_true, if_false, Bool.true_and]
    cases mf with
    | none => rfl
    | some m =>
      by_cases hm : m = ""
      · simp [hm]
      · have hdm : decide (m = "") = false := decide_eq_false hm
        simp only [if_neg hm, handlerChain_eq, hdm, Bool.false_or]
        cases hs1 : substrOf m r.name with
        | true => simp
        | false =>
          simp only [Bool.false_eq_true, if_false, Bool.false_or]
          cases hs2 : substrOf m r.pattern with
          | true => simp
          | false => simp

theorem if_self_and (a b : Bool) : (if a then b else a) = (a && b) := by
  cases a <;> rfl

/-- isAllowedByFilters decomposed into one boolean conjunct per filter. -/
theorem isAllowedByFilters_decomp (fl : Flags) (r : SerializedRoute) :
    isAllowedByFilters fl r =
      ((match fl.middleware with
        | some names => names.all fun n =>
            if n = "*" then decide (0 < r.middleware.length)
            else r.middleware.contains n
        | none => true) &&
       ((match fl.ignoreMiddleware with
        | some names => names.all fun n =>
            if n = "*" then decide (r.middleware.length = 0)
            else !(r.middleware.contains n)
        | none => true) &&
       (match fl.matchFlag with
        | none => true
        | some m => decide (m = "") || substrOf m r.name || substrOf m r.pattern ||
            substrOf m (matchTarget r.handler)))) := by
  obtain ⟨mf, mw, imw⟩ := fl
  cases imw with
  | none =>
    simp only [isAllowedByFilters]
    rw [tailStage]
    simp
  | some ns2 =>
    simp only [isAllowedByFilters]
    rw [if_self_and, tailStage]
    simp [Bool.and_assoc]

theorem mwOpt_iff (mw : Option (List String)) (mids : List String) :
    ((match mw with
      | some names => names.all fun n =>
          if n = "*" then decide (0 < mids.length) else mids.contains n
      | none => true) = true) ↔
    (∀ ns, mw = some ns → ∀ n ∈ ns, if n = "*" then mids ≠ [] else n ∈ mids) := by
  cases mw with
  | none => simp
  | some ns => simp [mwAll_iff, List.length_pos]

theorem imwOpt_iff (imw : Option (List String)) (mids : List String) :
    ((match imw with
      | some names => names.all fun n =>
          if n = "*" then decide (mids.length = 0) else !(mids.contains n)
      | none => true) = true) ↔
    (∀ ns, imw = some ns → ∀ n ∈ ns, if n = "*" then mids = [] else n ∉ mids) := by
  cases imw with
  | none => simp
  | some ns => simp [imwAll_iff, List.length_eq_zero]

theorem mfOpt_iff (mf : Option String) (r : SerializedRoute) :
    ((match mf with
      | none => true
      | some m => decide (m = "") || substrOf m r.name || substrOf m r.pattern ||
          substrOf m (matchTarget r.handler)) = true) ↔
    (∀ m, mf = some m → m ≠ "" →
      (substrOf m r.name = true ∨ substrOf m r.pattern = true ∨
        substrOf m (matchTarget r.handler) = true)) := by
  cases mf with
  | none => simp
  | some m =>
    by_cases hm : m = ""
    · simp [hm]
    · simp [hm, or_assoc]

/- ------------------------------------------------------------------
Claim theorems: the Collector filter.
------------------------------------------------------------------ -/

/-- C6 counterexample: the claim as stated matches against the controller
module/method dotted display name; the code consults only the module path.
A controller route whose method contains the keyword is retained by the
claim and rejected by the code. -/
theorem claim_c6_filters_cex :
    claimAllowedByFilters ⟨some "show", none, none⟩
      ⟨"x", "/y", ["GET"], [], Handler.controller "UsersController" "show"⟩ = true ∧
    isAllowedByFilters ⟨some "show", none, none⟩
      ⟨"x", "/y", ["GET"], [], Handler.controller "UsersController" "show"⟩ = false :=
  ⟨rfl, rfl⟩

/-- C6 amended: a route is retained iff it passes every supplied filter,
where the match filter consults the name, the pattern, and for a controller
handler only its module path (not the method; for a closure its name), and
an empty match keyword disables that filter. -/
theorem claim_c6_filters (fl : Flags) (r : SerializedRoute) :
    isAllowedByFilters fl r = true ↔
      ((∀ ns, fl.middleware = some ns → ∀ n ∈ ns,
          if n = "*" then r.middleware ≠ [] else n ∈ r.middleware) ∧
       (∀ ns, fl.ignoreMiddleware = some ns → ∀ n ∈ ns,
          if n = "*" then r.middleware = [] else n ∉ r.middleware) ∧
       (∀ m, fl.matchFlag = some m → m ≠ "" →
          (substrOf m r.name = true ∨ substrOf m r.pattern = true ∨
            substrOf m (matchTarget r.handler) = true))) := by
  rw [isAllowedByFilters_decomp, Bool.and_eq_true, Bool.and_eq_true]
  rw [mwOpt_iff, imwOpt_iff, mfOpt_iff]

/-- Witness for C6 with all three filters supplied. -/
theorem claim_c6_filters_witness :
    isAllowedByFilters ⟨some "users", some ["auth"], some ["guest"]⟩
      ⟨"users.show", "/users/:id", ["GET"], ["auth"],
        Handler.controller "UsersController" "show"⟩ = true :=
  (claim_c6_filters ⟨some "users", some ["auth"], some ["guest"]⟩
    ⟨"users.show", "/users/:id", ["GET"], ["auth"],
      Handler.controller "UsersController" "show"⟩).mpr
    ⟨by intro ns hns; injection hns with h; subst h; decide,
     by intro ns hns; injection hns with h; subst h; decide,
     by intro m hm hne; injection hm with h; subst h; left; decide⟩

/- ------------------------------------------------------------------
Claim theorems: the run pipeline error handling.
------------------------------------------------------------------ -/

/-- C2 counterexample: obfuscation requested with no APP_KEY configured
aborts before any write, but the command merely logs and returns — the
exit code stays 0, not the non-zero failure status the claim requires. -/
theorem claim_c2_abort_cex :
    (run (fun _ _ => "") ⟨"resources/js/chimera.ts", true⟩ none ⟨none, none, none⟩
        [⟨"users.show", "/users/:id", ["GET"], [],
          Handler.closure "closure" none⟩]).written = none ∧
    (run (fun _ _ => "") ⟨"resources/js/chimera.ts", true⟩ none ⟨none, none, none⟩
        [⟨"users.show", "/users/:id", ["GET"], [],
          Handler.closure "closure" none⟩]).exitCode = 0 :=
  ⟨rfl, rfl⟩

/-- C2 amended: obfuscation requested with a falsy APP_KEY aborts before
any file is written (nothing is ever written), an error is logged, and the
command returns with the default success exit code 0; only exceptions
caught later set exit code 1. -/
theorem claim_c2_abort (hmacHex : String → String → String) (cfg : Config)
    (appKey : Option String) (fl : Flags) (routes : List SerializedRoute)
    (hobf : cfg.obfuscate = true) (hkey : jsFalsyKey appKey = true) :
    run hmacHex cfg appKey fl routes = { written := none, exitCode := 0 } := by
  simp [run, hobf, hkey]

/-- Witness for C2 with an empty-string APP_KEY. -/
theorem claim_c2_abort_witness :
    run (fun _ _ => "") ⟨"resources/js/chimera.ts", true⟩ (some "")
      ⟨none, none, none⟩ [] = { written := none, exitCode := 0 } :=
  claim_c2_abort (fun _ _ => "") ⟨"resources/js/chimera.ts", true⟩ (some "")
    ⟨none, none, none⟩ [] rfl rfl

/-- C7 counterexample: with no named routes at all, and likewise when the
supplied filters reject every route, the command warns and returns — no
artifact at all is written, where the claim promises a minimal artifact
with an empty tree and empty name map.  The warning-not-error half does
hold: the exit code stays 0. -/
theorem claim_c7_empty_cex :
    (run (fun _ _ => "") ⟨"resources/js/chimera.ts", false⟩ (some "secret")
        ⟨none, none, none⟩ []).written = none ∧
    (run (fun _ _ => "") ⟨"resources/js/chimera.ts", false⟩ (some "secret")
        ⟨some "zzz", none, none⟩
        [⟨"home", "/", ["GET"], [], Handler.closure "closure" none⟩]).written
      = none ∧
    (run (fun _ _ => "") ⟨"resources/js/chimera.ts", false⟩ (some "secret")
        ⟨some "zzz", none, none⟩
        [⟨"home", "/", ["GET"], [], Handler.closure "closure" none⟩]).exitCode
      = 0 :=
  ⟨rfl, rfl, rfl⟩

/-- C7 amended: when no named route survives filtering (in particular when
there are no named routes at all), the run warns and returns successfully
(exit code 0) without writing anything: no artifact is produced. -/
theorem claim_c7_empty (hmacHex : String → String → String) (cfg : Config)
    (appKey : Option String) (fl : Flags) (routes : List SerializedRoute)
    (hempty : (routes.filter fun r => r.name ≠ "").filter (isAllowedByFilters fl)
      = []) :
    run hmacHex cfg appKey fl routes = { written := none, exitCode := 0 } := by
  simp only [run]
  by_cases h1 : (cfg.obfuscate && jsFalsyKey appKey) = true
  · rw [if_pos h1]
  · rw [if_neg h1]
    by_cases h2 : (routes.filter fun r => r.name ≠ "").length = 0
    · rw [if_pos h2]
    · rw [if_neg h2]
      rw [if_pos
        (show ((routes.filter fun r => r.name ≠ "").filter
          (isAllowedByFilters fl)).length = 0 by rw [hempty]; rfl)]

/-- Witness for C7: one named route rejected by the match filter. -/
theorem claim_c7_empty_witness :
    run (fun _ _ => "") ⟨"resources/js/chimera.ts", false⟩ (some "k")
      ⟨some "zzz", none, none⟩
      [⟨"home", "/", ["GET"], [], Handler.closure "closure" none⟩]
      = { written := none, exitCode := 0 } :=
  claim_c7_empty (fun _ _ => "") ⟨"resources/js/chimera.ts", false⟩ (some "k")
    ⟨some "zzz", none, none⟩
    [⟨"home", "/", ["GET"], [], Handler.closure "closure" none⟩] rfl

end Chimera
